import Mathlib

/-!
Verification of the key-preparation and envelope (IV-prepend) protocol of the
`simple-encryption-util` library (`src/lib.ts`).

Bytes are modelled as `Nat` (byte values 0–255), byte sequences (`Buffer`) as
`List Nat`, and JavaScript strings as `List Char`.  The AES-256 block
primitive lives in the platform's `crypto` module, not in this repository, so
it is modelled as an abstract `BlockCipher`: a keyed block permutation that
preserves block length and whose decrypt direction inverts its encrypt
direction on 16-byte blocks — exactly the contract `aes-256-cbc` delegates to.
CBC chaining, PKCS#7 block padding/unpadding, and the envelope layout
`IV(16) || ciphertext` are implemented concretely, following the behaviour of
Node's `crypto.createCipheriv` / `crypto.createDecipheriv` with algorithm
`"aes-256-cbc"` as used by `lib.ts`.

Failure modes of `decrypt` mirror the errors Node's crypto layer throws from
the call sequence in `lib.ts`: `createDecipheriv` rejects an IV that is not
16 bytes (which, given the `subarray` split, happens exactly when the input
is shorter than 16 bytes); `decipher.final()` rejects a ciphertext that is
empty or not a multiple of the block size, and rejects invalid padding.
-/

namespace SimpleEncryption

/-- Block size of `aes-256-cbc` (16 bytes), as fixed by the `ALGORITHM`
constant of `lib.ts`. -/
def BLOCK_SIZE : Nat := 16

/-- The `IV_SIZE` constant of `lib.ts`: 16 bytes (128 bits). -/
def IV_SIZE : Nat := 16

/-- The `KEY_SIZE` constant of `lib.ts`: 32 bytes (256 bits). -/
def KEY_SIZE : Nat := 32

/-- The `prepareKey` function of `lib.ts`: if the password is at least
`KEY_SIZE` bytes, keep its first `KEY_SIZE` bytes (`key.subarray(0, KEY_SIZE)`);
otherwise right-pad it with zero bytes
(`Buffer.concat([key, Buffer.alloc(KEY_SIZE - key.length).fill(0)])`). -/
def prepareKey (key : List Nat) : List Nat :=
  if KEY_SIZE ≤ key.length then
    key.take KEY_SIZE
  else
    key ++ List.replicate (KEY_SIZE - key.length) 0

/-- PKCS#7 block padding as applied by Node's cipher in `aes-256-cbc` mode:
append `p` copies of the byte `p`, where `p = 16 - (len mod 16)` (so a full
block of `16` bytes valued `16` is appended when the length is already a
multiple of 16). -/
def pkcs7Pad (data : List Nat) : List Nat :=
  data ++ List.replicate (BLOCK_SIZE - data.length % BLOCK_SIZE)
    (BLOCK_SIZE - data.length % BLOCK_SIZE)

/-- PKCS#7 unpadding as checked by Node's decipher on `final()`: the last
byte `p` must satisfy `1 ≤ p ≤ 16`, and the last `p` bytes must all equal
`p`; then the last `p` bytes are removed.  Any violation is reported as a
failure (`none`), never as partial output. -/
def pkcs7Unpad (data : List Nat) : Option (List Nat) :=
  match data.getLast? with
  | none => none
  | some p =>
    if 1 ≤ p ∧ p ≤ BLOCK_SIZE ∧ p ≤ data.length ∧
        data.drop (data.length - p) = List.replicate p p then
      some (data.take (data.length - p))
    else
      none

/-- Fuel-driven splitting of a byte sequence into `BLOCK_SIZE`-byte chunks
(the fuel only serves to make the recursion structural; `toBlocks` supplies
enough fuel for the whole list). -/
def toBlocksGo : Nat → List Nat → List (List Nat)
  | 0, _ => []
  | _ + 1, [] => []
  | fuel + 1, a :: rest =>
    (a :: rest).take BLOCK_SIZE :: toBlocksGo fuel ((a :: rest).drop BLOCK_SIZE)

/-- Split a byte sequence into consecutive `BLOCK_SIZE`-byte chunks, the way
a block cipher consumes its input. -/
def toBlocks (data : List Nat) : List (List Nat) :=
  toBlocksGo data.length data

/-- Bytewise XOR of two byte sequences (truncating to the shorter one), the
block-combination step of CBC mode. -/
def xorBytes (a b : List Nat) : List Nat :=
  List.zipWith Nat.xor a b

/-- Interface of the platform block-cipher primitive that `lib.ts` delegates
to through `crypto.createCipheriv`/`createDecipheriv` with `"aes-256-cbc"`:
a keyed block transform together with the two properties CBC mode relies on —
it preserves the block length, and its decrypt direction inverts its encrypt
direction on `BLOCK_SIZE`-byte blocks. -/
structure BlockCipher where
  encryptBlock : List Nat → List Nat → List Nat
  decryptBlock : List Nat → List Nat → List Nat
  length_encryptBlock : ∀ k b, (encryptBlock k b).length = b.length
  decryptBlock_encryptBlock : ∀ k b, b.length = BLOCK_SIZE →
    decryptBlock k (encryptBlock k b) = b

/-- CBC encryption over a list of plaintext blocks: each block is XORed with
the previous ciphertext block (initially the IV) before entering the block
cipher. -/
def cbcEncryptBlocks (C : BlockCipher) (key : List Nat) :
    List Nat → List (List Nat) → List (List Nat)
  | _, [] => []
  | prev, b :: bs =>
    C.encryptBlock key (xorBytes prev b) ::
      cbcEncryptBlocks C key (C.encryptBlock key (xorBytes prev b)) bs

/-- CBC decryption over a list of ciphertext blocks: each block is sent
through the block cipher's decrypt direction and XORed with the previous
ciphertext block (initially the IV). -/
def cbcDecryptBlocks (C : BlockCipher) (key : List Nat) :
    List Nat → List (List Nat) → List (List Nat)
  | _, [] => []
  | prev, c :: cs =>
    xorBytes prev (C.decryptBlock key c) :: cbcDecryptBlocks C key c cs

/-- The ciphertext portion produced by `encrypt` of `lib.ts`
(`Buffer.concat([cipher.update(data), cipher.final()])`): CBC encryption of
the PKCS#7-padded plaintext under the prepared key and the given IV. -/
def cbcCiphertext (C : BlockCipher) (key iv data : List Nat) : List Nat :=
  (cbcEncryptBlocks C (prepareKey key) iv (toBlocks (pkcs7Pad data))).flatten

/-- The `encrypt` function of `lib.ts`.  The `iv` parameter stands for the
16-byte value returned by `crypto.randomBytes(IV_SIZE)` during the call; the
result is `Buffer.concat([iv, encrypted, cipher.final()])`, i.e. the IV
followed by the CBC ciphertext. -/
def encrypt (C : BlockCipher) (iv data key : List Nat) : List Nat :=
  iv ++ cbcCiphertext C key iv data

/-- Distinguishable failures a `decrypt`/`decryptAsync` call of `lib.ts`
surfaces from the platform crypto layer: `invalidIV` is thrown by
`createDecipheriv` when the IV extracted from the envelope is not 16 bytes
(i.e. the envelope is shorter than `IV_SIZE`); `wrongFinalBlockLength` is
thrown by `decipher.final()` when the ciphertext portion is empty or not a
whole number of blocks; `badDecrypt` is thrown by `decipher.final()` when
the decrypted data does not end in valid PKCS#7 padding. -/
inductive DecryptError where
  | invalidIV
  | wrongFinalBlockLength
  | badDecrypt
deriving DecidableEq

deriving instance DecidableEq for Except

/-- The `decrypt` function of `lib.ts`: split the input into
`iv = encryptedData.subarray(0, IV_SIZE)` and
`data = encryptedData.subarray(IV_SIZE)` (Node's `subarray` clamps, so `iv`
is shorter than 16 bytes exactly when the input is), hand them to the
decipher, and return
`Buffer.concat([decipher.update(data), decipher.final()])` — CBC decryption
of `data` followed by PKCS#7 unpadding — or the corresponding
`DecryptError`. -/
def decrypt (C : BlockCipher) (encryptedData key : List Nat) :
    Except DecryptError (List Nat) :=
  let iv := encryptedData.take IV_SIZE
  let data := encryptedData.drop IV_SIZE
  if iv.length ≠ IV_SIZE then
    .error .invalidIV
  else if data.length = 0 ∨ data.length % BLOCK_SIZE ≠ 0 then
    .error .wrongFinalBlockLength
  else
    match pkcs7Unpad (cbcDecryptBlocks C (prepareKey key) iv (toBlocks data)).flatten with
    | some plain => .ok plain
    | none => .error .badDecrypt

/-- The `encryptAsync` function of `lib.ts`, embedded as the value its
promise resolves to: the cipher's `"data"` events are pushed onto a buffer
list seeded with the IV (`buffers = [Buffer.from(iv)]`), and on `"end"` the
list is concatenated (`Buffer.concat(buffers)`, modelled as a left fold of
append over the collected chunks). -/
def encryptAsync (C : BlockCipher) (iv data key : List Nat) : List Nat :=
  (([iv] ++ cbcEncryptBlocks C (prepareKey key) iv (toBlocks (pkcs7Pad data))).foldl
    (· ++ ·) [])

/-- The `decryptAsync` function of `lib.ts`, embedded as the outcome of its
promise: same IV/ciphertext split and decipher configuration as `decrypt`,
with the decrypted chunks collected through `"data"` events and concatenated
on `"end"` (`Buffer.concat(buffers)`, modelled as a left fold of append); an
`"error"` event rejects with the corresponding `DecryptError`, and an invalid
IV makes `createDecipheriv` itself throw before the promise is built. -/
def decryptAsync (C : BlockCipher) (encryptedData key : List Nat) :
    Except DecryptError (List Nat) :=
  let iv := encryptedData.take IV_SIZE
  let data := encryptedData.drop IV_SIZE
  if iv.length ≠ IV_SIZE then
    .error .invalidIV
  else if data.length = 0 ∨ data.length % BLOCK_SIZE ≠ 0 then
    .error .wrongFinalBlockLength
  else
    match pkcs7Unpad ((cbcDecryptBlocks C (prepareKey key) iv (toBlocks data)).foldl
        (· ++ ·) []) with
    | some plain => .ok plain
    | none => .error .badDecrypt

/-- The default value of the `yes` parameter of `askQuestion` in `lib.ts`:
`["yes", "y"]`. -/
def defaultYes : List (List Char) := [['y', 'e', 's'], ['y']]

/-- JavaScript's `toLocaleLowerCase()` as used by `askQuestion`, modelled as
per-character lowercasing (`Char.toLower`). -/
def lowercase (s : List Char) : List Char :=
  s.map Char.toLower

/-- The decision computed by `askQuestion` of `lib.ts` on the string the
`read` prompt resolves to:
`yes.map(y => y.toLocaleLowerCase()).includes(result.toLocaleLowerCase())`.
The interactive prompt itself is thin I/O glue; the returned boolean is this
pure function of the user's input and the accepted-token list. -/
def askQuestion (input : List Char) (yes : List (List Char)) : Bool :=
  (yes.map lowercase).contains (lowercase input)

/-- UTF-8 encoding of a single character (code point), the encoding Node's
`cipher.update(data)` / `cipher.write(data)` applies by default when `data`
is a string rather than a `Buffer`. -/
def utf8EncodeChar (c : Char) : List Nat :=
  if c.toNat < 128 then
    [c.toNat]
  else if c.toNat < 2048 then
    [192 + c.toNat / 64, 128 + c.toNat % 64]
  else if c.toNat < 65536 then
    [224 + c.toNat / 4096, 128 + c.toNat / 64 % 64, 128 + c.toNat % 64]
  else
    [240 + c.toNat / 262144, 128 + c.toNat / 4096 % 64,
      128 + c.toNat / 64 % 64, 128 + c.toNat % 64]

/-- UTF-8 byte encoding of a string (a list of characters). -/
def utf8Bytes (s : List Char) : List Nat :=
  (s.map utf8EncodeChar).flatten

/-- The `encrypt` function of `lib.ts` applied to a string argument
(`data: string | Buffer`): Node's cipher consumes the UTF-8 bytes of the
string (the default input encoding for string data), so the call encrypts
`utf8Bytes data`. -/
def encryptString (C : BlockCipher) (iv : List Nat) (data : List Char)
    (key : List Nat) : List Nat :=
  encrypt C iv (utf8Bytes data) key

/-- The `encryptAsync` function of `lib.ts` applied to a string argument:
`cipher.write(data)` decodes string data as UTF-8 by default, so the call
encrypts `utf8Bytes data`. -/
def encryptStringAsync (C : BlockCipher) (iv : List Nat) (data : List Char)
    (key : List Nat) : List Nat :=
  encryptAsync C iv (utf8Bytes data) key

/-- A concrete instance of the block-cipher interface (bytewise XOR with a
constant), used to instantiate the cipher-parametric theorems on concrete
inputs. -/
def xorCipher : BlockCipher where
  encryptBlock := fun _ b => b.map (fun x => x ^^^ 165)
  decryptBlock := fun _ b => b.map (fun x => x ^^^ 165)
  length_encryptBlock := by
    intro k b
    simp
  decryptBlock_encryptBlock := by
    intro k b h
    simp [List.map_map, Function.comp_def, Nat.xor_assoc]

lemma toBlocksGo_flatten (fuel : Nat) :
    ∀ l : List Nat, l.length ≤ fuel → (toBlocksGo fuel l).flatten = l := by
  induction fuel with
  | zero =>
    intro l hl
    have : l = [] := List.eq_nil_of_length_eq_zero (Nat.le_zero.mp hl)
    subst this
    rfl
  | succ fuel ih =>
    intro l hl
    cases l with
    | nil => rfl
    | cons a rest =>
      have hdrop : ((a :: rest).drop BLOCK_SIZE).length ≤ fuel := by
        simp only [List.length_drop, List.length_cons, BLOCK_SIZE] at *
        omega
      calc (toBlocksGo (fuel + 1) (a :: rest)).flatten
          = (a :: rest).take BLOCK_SIZE ++ (toBlocksGo fuel ((a :: rest).drop BLOCK_SIZE)).flatten := by
            rfl
        _ = (a :: rest).take BLOCK_SIZE ++ (a :: rest).drop BLOCK_SIZE := by
            rw [ih _ hdrop]
        _ = a :: rest := List.take_append_drop _ _

lemma toBlocks_flatten (l : List Nat) : (toBlocks l).flatten = l :=
  toBlocksGo_flatten l.length l le_rfl

lemma toBlocksGo_spec (fuel : Nat) :
    ∀ l : List Nat, l.length ≤ fuel → l.length % BLOCK_SIZE = 0 →
      (∀ b ∈ toBlocksGo fuel l, b.length = BLOCK_SIZE) ∧
        (toBlocksGo fuel l).length = l.length / BLOCK_SIZE := by
  induction fuel with
  | zero =>
    intro l hl _
    have : l = [] := List.eq_nil_of_length_eq_zero (Nat.le_zero.mp hl)
    subst this
    exact ⟨by intro b hb; simp [toBlocksGo] at hb, rfl⟩
  | succ fuel ih =>
    intro l hl hmod
    cases l with
    | nil => exact ⟨by intro b hb; simp [toBlocksGo] at hb, rfl⟩
    | cons a rest =>
      have hlen : BLOCK_SIZE ≤ (a :: rest).length := by
        simp only [List.length_cons] at *
        show 16 ≤ rest.length + 1
        simp only [BLOCK_SIZE] at hmod
        omega
      have hdlen : ((a :: rest).drop BLOCK_SIZE).length ≤ fuel := by
        simp only [List.length_drop, List.length_cons, BLOCK_SIZE] at *
        omega
      have hdmod : ((a :: rest).drop BLOCK_SIZE).length % BLOCK_SIZE = 0 := by
        simp only [List.length_drop]
        simp only [BLOCK_SIZE] at hmod ⊢
        omega
      obtain ⟨ihmem, ihlen⟩ := ih _ hdlen hdmod
      constructor
      · intro b hb
        rcases (List.mem_cons).mp hb with hb | hb
        · subst hb
          simp only [List.length_take, List.length_cons, BLOCK_SIZE] at *
          omega
        · exact ihmem b hb
      · show (toBlocksGo fuel ((a :: rest).drop BLOCK_SIZE)).length + 1
            = (a :: rest).length / BLOCK_SIZE
        rw [ihlen]
        simp only [List.length_drop, List.length_cons] at *
        simp only [BLOCK_SIZE] at *
        omega

lemma toBlocks_spec (l : List Nat) (hmod : l.length % BLOCK_SIZE = 0) :
    (∀ b ∈ toBlocks l, b.length = BLOCK_SIZE) ∧
      (toBlocks l).length = l.length / BLOCK_SIZE :=
  toBlocksGo_spec l.length l le_rfl hmod

lemma toBlocksGo_of_blocks (L : List (List Nat)) :
    ∀ fuel : Nat, (∀ b ∈ L, b.length = BLOCK_SIZE) → L.flatten.length ≤ fuel →
      toBlocksGo fuel L.flatten = L := by
  induction L with
  | nil =>
    intro fuel _ _
    cases fuel <;> rfl
  | cons b rest ih =>
    intro fuel hmem hfuel
    have hb : b.length = BLOCK_SIZE := hmem b (List.mem_cons_self b rest)
    have hfl : (b :: rest).flatten = b ++ rest.flatten := rfl
    cases fuel with
    | zero =>
      exfalso
      rw [hfl] at hfuel
      simp only [List.length_append, hb, BLOCK_SIZE] at hfuel
      omega
    | succ fuel =>
      obtain ⟨x, xs, hbx⟩ : ∃ x xs, b = x :: xs := by
        cases b with
        | nil => simp [BLOCK_SIZE] at hb
        | cons x xs => exact ⟨x, xs, rfl⟩
      have hcons : b ++ rest.flatten = x :: (xs ++ rest.flatten) := by
        rw [hbx]; rfl
      rw [hfl, hcons]
      show (x :: (xs ++ rest.flatten)).take BLOCK_SIZE ::
          toBlocksGo fuel ((x :: (xs ++ rest.flatten)).drop BLOCK_SIZE) = b :: rest
      rw [← hcons]
      have htake : (b ++ rest.flatten).take BLOCK_SIZE = b := by
        rw [← hb]; exact List.take_left b rest.flatten
      have hdrop : (b ++ rest.flatten).drop BLOCK_SIZE = rest.flatten := by
        rw [← hb]; exact List.drop_left b rest.flatten
      rw [htake, hdrop]
      congr 1
      apply ih fuel (fun c hc => hmem c (List.mem_cons_of_mem b hc))
      rw [hfl, hcons] at hfuel
      simp only [List.length_cons, List.length_append] at hfuel ⊢
      omega

lemma toBlocks_of_blocks (L : List (List Nat))
    (hmem : ∀ b ∈ L, b.length = BLOCK_SIZE) : toBlocks L.flatten = L :=
  toBlocksGo_of_blocks L L.flatten.length hmem le_rfl

lemma xorBytes_length (a b : List Nat) :
    (xorBytes a b).length = min a.length b.length := by
  simp [xorBytes]

lemma xorBytes_xorBytes_cancel (a : List Nat) :
    ∀ b : List Nat, xorBytes a (xorBytes a b) = b.take a.length := by
  induction a with
  | nil =>
    intro b
    rfl
  | cons x xs ih =>
    intro b
    cases b with
    | nil => rfl
    | cons y ys =>
      show (x ^^^ (x ^^^ y)) :: xorBytes xs (xorBytes xs ys) = y :: ys.take xs.length
      rw [← Nat.xor_assoc, Nat.xor_self, Nat.zero_xor, ih]

lemma cbcEncryptBlocks_mem_length (C : BlockCipher) (key : List Nat) :
    ∀ (bs : List (List Nat)) (prev : List Nat), prev.length = BLOCK_SIZE →
      (∀ b ∈ bs, b.length = BLOCK_SIZE) →
      ∀ c ∈ cbcEncryptBlocks C key prev bs, c.length = BLOCK_SIZE := by
  intro bs
  induction bs with
  | nil =>
    intro prev _ _ c hc
    simp [cbcEncryptBlocks] at hc
  | cons b rest ih =>
    intro prev hprev hmem c hc
    have hb : b.length = BLOCK_SIZE := hmem b (List.mem_cons_self b rest)
    have hhead : (C.encryptBlock key (xorBytes prev b)).length = BLOCK_SIZE := by
      rw [C.length_encryptBlock, xorBytes_length, hprev, hb]
      exact Nat.min_self _
    rcases (List.mem_cons).mp hc with hc | hc
    · rw [hc]; exact hhead
    · exact ih (C.encryptBlock key (xorBytes prev b)) hhead
        (fun d hd => hmem d (List.mem_cons_of_mem b hd)) c hc

lemma cbcDecryptBlocks_cbcEncryptBlocks (C : BlockCipher) (key : List Nat) :
    ∀ (bs : List (List Nat)) (prev : List Nat), prev.length = BLOCK_SIZE →
      (∀ b ∈ bs, b.length = BLOCK_SIZE) →
      cbcDecryptBlocks C key prev (cbcEncryptBlocks C key prev bs) = bs := by
  intro bs
  induction bs with
  | nil =>
    intro prev _ _
    rfl
  | cons b rest ih =>
    intro prev hprev hmem
    have hb : b.length = BLOCK_SIZE := hmem b (List.mem_cons_self b rest)
    have hxlen : (xorBytes prev b).length = BLOCK_SIZE := by
      rw [xorBytes_length, hprev, hb]
      exact Nat.min_self _
    show xorBytes prev (C.decryptBlock key (C.encryptBlock key (xorBytes prev b))) ::
        cbcDecryptBlocks C key (C.encryptBlock key (xorBytes prev b))
          (cbcEncryptBlocks C key (C.encryptBlock key (xorBytes prev b)) rest) = b :: rest
    rw [C.decryptBlock_encryptBlock key _ hxlen, xorBytes_xorBytes_cancel, hprev, ← hb,
      List.take_length]
    congr 1
    apply ih
    · rw [C.length_encryptBlock, hxlen]
    · exact fun d hd => hmem d (List.mem_cons_of_mem b hd)

lemma flatten_length_of_blocks (L : List (List Nat))
    (hmem : ∀ b ∈ L, b.length = BLOCK_SIZE) :
    L.flatten.length = BLOCK_SIZE * L.length := by
  induction L with
  | nil => rfl
  | cons b rest ih =>
    have : (b :: rest).flatten = b ++ rest.flatten := rfl
    rw [this, List.length_append, hmem b (List.mem_cons_self b rest),
      ih (fun d hd => hmem d (List.mem_cons_of_mem b hd)), List.length_cons]
    ring

lemma foldl_append_eq_flatten (L : List (List Nat)) :
    ∀ a : List Nat, L.foldl (· ++ ·) a = a ++ L.flatten := by
  induction L with
  | nil =>
    intro a
    simp
  | cons b rest ih =>
    intro a
    show rest.foldl (· ++ ·) (a ++ b) = a ++ (b :: rest).flatten
    rw [ih (a ++ b)]
    simp

lemma pkcs7Pad_length (data : List Nat) :
    (pkcs7Pad data).length = BLOCK_SIZE * (data.length / BLOCK_SIZE + 1) := by
  simp only [pkcs7Pad, List.length_append, List.length_replicate, BLOCK_SIZE]
  omega

lemma pkcs7Unpad_pkcs7Pad (data : List Nat) :
    pkcs7Unpad (pkcs7Pad data) = some data := by
  have hp1 : 1 ≤ BLOCK_SIZE - data.length % BLOCK_SIZE := by
    simp only [BLOCK_SIZE]; omega
  have hp16 : BLOCK_SIZE - data.length % BLOCK_SIZE ≤ BLOCK_SIZE := by
    simp only [BLOCK_SIZE]; omega
  have hlast : (pkcs7Pad data).getLast? = some (BLOCK_SIZE - data.length % BLOCK_SIZE) := by
    simp only [pkcs7Pad]
    rw [List.getLast?_append]
    rw [List.getLast?_replicate]
    simp only [Option.or]
    rw [if_neg (by omega)]
  have hplen : (pkcs7Pad data).length = data.length + (BLOCK_SIZE - data.length % BLOCK_SIZE) := by
    simp [pkcs7Pad]
  simp only [pkcs7Unpad, hlast]
  rw [if_pos]
  · rw [hplen]
    rw [Nat.add_sub_cancel]
    simp only [pkcs7Pad]
    rw [List.take_left]
  · refine ⟨hp1, hp16, ?_, ?_⟩
    · rw [hplen]; omega
    · rw [hplen, Nat.add_sub_cancel]
      simp only [pkcs7Pad]
      rw [List.drop_left]

lemma cbcEncryptBlocks_length (C : BlockCipher) (key : List Nat) :
    ∀ (bs : List (List Nat)) (prev : List Nat),
      (cbcEncryptBlocks C key prev bs).length = bs.length := by
  intro bs
  induction bs with
  | nil => intro prev; rfl
  | cons b rest ih =>
    intro prev
    show (cbcEncryptBlocks C key _ rest).length + 1 = rest.length + 1
    rw [ih]

lemma decrypt_of_append (C : BlockCipher) (K iv ct : List Nat)
    (hiv : iv.length = IV_SIZE) (hct0 : ct.length ≠ 0)
    (hctm : ct.length % BLOCK_SIZE = 0) :
    decrypt C (iv ++ ct) K =
      match pkcs7Unpad (cbcDecryptBlocks C (prepareKey K) iv (toBlocks ct)).flatten with
      | some plain => .ok plain
      | none => .error .badDecrypt := by
  have htake : (iv ++ ct).take IV_SIZE = iv := List.take_left' hiv
  have hdrop : (iv ++ ct).drop IV_SIZE = ct := List.drop_left' hiv
  simp only [decrypt, htake, hdrop, hiv]
  rw [if_neg (by simp), if_neg (by push_neg; exact ⟨hct0, hctm⟩)]

lemma cbcCiphertext_length (C : BlockCipher) (K iv P : List Nat)
    (hiv : iv.length = BLOCK_SIZE) :
    (cbcCiphertext C K iv P).length = BLOCK_SIZE * (P.length / BLOCK_SIZE + 1) := by
  have hpadmod : (pkcs7Pad P).length % BLOCK_SIZE = 0 := by
    rw [pkcs7Pad_length]
    exact Nat.mul_mod_right _ _
  obtain ⟨hmem, hcount⟩ := toBlocks_spec (pkcs7Pad P) hpadmod
  show ((cbcEncryptBlocks C (prepareKey K) iv (toBlocks (pkcs7Pad P))).flatten).length = _
  rw [flatten_length_of_blocks _
      (cbcEncryptBlocks_mem_length C (prepareKey K) (toBlocks (pkcs7Pad P)) iv hiv hmem),
    cbcEncryptBlocks_length, hcount, pkcs7Pad_length, Nat.mul_div_cancel_left]
  simp [BLOCK_SIZE]

lemma decrypt_encrypt (C : BlockCipher) (P K₁ K₂ iv : List Nat)
    (hiv : iv.length = IV_SIZE) (hk : prepareKey K₁ = prepareKey K₂) :
    decrypt C (encrypt C iv P K₁) K₂ = Except.ok P := by
  have hiv16 : iv.length = BLOCK_SIZE := hiv
  have hpadmod : (pkcs7Pad P).length % BLOCK_SIZE = 0 := by
    rw [pkcs7Pad_length]
    exact Nat.mul_mod_right _ _
  obtain ⟨hmem, hcount⟩ := toBlocks_spec (pkcs7Pad P) hpadmod
  have hcmem := cbcEncryptBlocks_mem_length C (prepareKey K₁)
    (toBlocks (pkcs7Pad P)) iv hiv16 hmem
  have hctlen := cbcCiphertext_length C K₁ iv P hiv16
  have hct0 : (cbcCiphertext C K₁ iv P).length ≠ 0 := by
    rw [hctlen]
    simp only [BLOCK_SIZE]
    omega
  have hctm : (cbcCiphertext C K₁ iv P).length % BLOCK_SIZE = 0 := by
    rw [hctlen]
    exact Nat.mul_mod_right _ _
  show decrypt C (iv ++ cbcCiphertext C K₁ iv P) K₂ = Except.ok P
  rw [decrypt_of_append C K₂ iv _ hiv hct0 hctm]
  have hblocks : toBlocks (cbcCiphertext C K₁ iv P)
      = cbcEncryptBlocks C (prepareKey K₁) iv (toBlocks (pkcs7Pad P)) :=
    toBlocks_of_blocks _ hcmem
  rw [hblocks, ← hk,
    cbcDecryptBlocks_cbcEncryptBlocks C (prepareKey K₁) (toBlocks (pkcs7Pad P)) iv hiv16 hmem,
    toBlocks_flatten, pkcs7Unpad_pkcs7Pad]

lemma encryptAsync_eq_encrypt (C : BlockCipher) (iv data key : List Nat) :
    encryptAsync C iv data key = encrypt C iv data key := by
  show ([iv] ++ cbcEncryptBlocks C (prepareKey key) iv (toBlocks (pkcs7Pad data))).foldl
      (· ++ ·) [] = _
  rw [foldl_append_eq_flatten]
  simp [encrypt, cbcCiphertext]

lemma decryptAsync_eq_decrypt (C : BlockCipher) (encryptedData key : List Nat) :
    decryptAsync C encryptedData key = decrypt C encryptedData key := by
  simp only [decryptAsync, decrypt, foldl_append_eq_flatten, List.nil_append]

/-- C1: for every plaintext byte sequence `P` and every password byte
sequence `K`, decrypting the envelope produced by `encrypt` with the same
password returns the original plaintext, the random IV generated inside
`encrypt` being an arbitrary 16-byte value. -/
theorem encrypt_decrypt_roundtrip (C : BlockCipher) (P K iv : List Nat)
    (hiv : iv.length = IV_SIZE) :
    decrypt C (encrypt C iv P K) K = Except.ok P :=
  decrypt_encrypt C P K K iv hiv rfl

theorem encrypt_decrypt_roundtrip_witness :
    (List.replicate 16 0).length = IV_SIZE ∧
    decrypt xorCipher (encrypt xorCipher (List.replicate 16 0) [1, 2, 3] [7]) [7]
      = Except.ok [1, 2, 3] :=
  ⟨by decide,
    encrypt_decrypt_roundtrip xorCipher [1, 2, 3] [7] (List.replicate 16 0) (by decide)⟩

/-- C2: `prepareKey` always returns exactly 32 bytes: the first 32 bytes of
the password when its length is at least 32 (pure truncation), and the
password right-padded with zero bytes when shorter; the empty password
yields 32 zero bytes and a 32-byte password is returned unchanged. -/
theorem prepareKey_spec (key : List Nat) :
    (prepareKey key).length = KEY_SIZE ∧
    (KEY_SIZE ≤ key.length → prepareKey key = key.take KEY_SIZE) ∧
    (key.length < KEY_SIZE →
      prepareKey key = key ++ List.replicate (KEY_SIZE - key.length) 0) ∧
    (key.length = KEY_SIZE → prepareKey key = key) ∧
    prepareKey [] = List.replicate KEY_SIZE 0 := by
  refine ⟨?_, ?_, ?_, ?_, ?_⟩
  · by_cases h : KEY_SIZE ≤ key.length
    · simp [prepareKey, h, List.length_take, Nat.min_eq_left h]
    · simp only [prepareKey, if_neg h, List.length_append, List.length_replicate]
      omega
  · intro h
    simp [prepareKey, h]
  · intro h
    rw [prepareKey, if_neg (by omega)]
  · intro h
    rw [prepareKey, if_pos (by omega), ← h, List.take_length]
  · rfl

theorem prepareKey_spec_witness :
    [1, 2, 3, 4].length < KEY_SIZE ∧
    prepareKey [1, 2, 3, 4]
      = [1, 2, 3, 4] ++ List.replicate (KEY_SIZE - [1, 2, 3, 4].length) 0 :=
  ⟨by decide, (prepareKey_spec [1, 2, 3, 4]).2.2.1 (by decide)⟩

/-- C3: for every password and every input shorter than 16 bytes, `decrypt`
(and `decryptAsync`) fails with the malformed-envelope error — the
invalid-IV failure raised before any decryption — which is distinguishable
from the decryption-integrity errors raised by the decipher's final step. -/
theorem decrypt_short_input (C : BlockCipher) (e K : List Nat)
    (h : e.length < IV_SIZE) :
    decrypt C e K = Except.error DecryptError.invalidIV ∧
    decryptAsync C e K = Except.error DecryptError.invalidIV ∧
    DecryptError.invalidIV ≠ DecryptError.badDecrypt ∧
    DecryptError.invalidIV ≠ DecryptError.wrongFinalBlockLength := by
  have htake : (e.take IV_SIZE).length ≠ IV_SIZE := by
    rw [List.length_take]
    simp only [IV_SIZE] at *
    omega
  refine ⟨?_, ?_, by decide, by decide⟩
  · simp only [decrypt]
    rw [if_pos htake]
  · simp only [decryptAsync]
    rw [if_pos htake]

theorem decrypt_short_input_witness :
    (List.replicate 15 0).length < IV_SIZE ∧
    decrypt xorCipher (List.replicate 15 0) [7] = Except.error DecryptError.invalidIV :=
  ⟨by decide, (decrypt_short_input xorCipher (List.replicate 15 0) [7] (by decide)).1⟩

/-- C4: the output of `encrypt` is the 16-byte IV generated during the call
followed by the CBC ciphertext of the PKCS-padded plaintext, so every
envelope is at least 16 bytes long and its total length is
`16 + 16 * (P.length / 16 + 1)`. -/
theorem encrypt_envelope_layout (C : BlockCipher) (iv P K : List Nat)
    (hiv : iv.length = IV_SIZE) :
    encrypt C iv P K = iv ++ cbcCiphertext C K iv P ∧
    (encrypt C iv P K).take IV_SIZE = iv ∧
    (encrypt C iv P K).length = IV_SIZE + BLOCK_SIZE * (P.length / BLOCK_SIZE + 1) ∧
    IV_SIZE ≤ (encrypt C iv P K).length := by
  have hlen : (encrypt C iv P K).length
      = IV_SIZE + BLOCK_SIZE * (P.length / BLOCK_SIZE + 1) := by
    show (iv ++ cbcCiphertext C K iv P).length = _
    rw [List.length_append, hiv, cbcCiphertext_length C K iv P hiv]
  exact ⟨rfl, List.take_left' hiv, hlen, by rw [hlen]; omega⟩

theorem encrypt_envelope_layout_witness :
    (List.replicate 16 0).length = IV_SIZE ∧
    (encrypt xorCipher (List.replicate 16 0) [1, 2, 3, 4, 5] [9]).length
      = IV_SIZE + BLOCK_SIZE * ([1, 2, 3, 4, 5].length / BLOCK_SIZE + 1) :=
  ⟨by decide,
    (encrypt_envelope_layout xorCipher (List.replicate 16 0) [1, 2, 3, 4, 5] [9]
      (by decide)).2.2.1⟩

/-- C5: encrypting the same plaintext and password with two different
internally generated 16-byte IVs yields envelopes that differ in their
first 16 bytes (hence differ), and both envelopes decrypt back to the
plaintext under the same password. -/
theorem encrypt_nondeterminism (C : BlockCipher) (P K iv₁ iv₂ : List Nat)
    (h₁ : iv₁.length = IV_SIZE) (h₂ : iv₂.length = IV_SIZE) (hne : iv₁ ≠ iv₂) :
    (encrypt C iv₁ P K).take IV_SIZE ≠ (encrypt C iv₂ P K).take IV_SIZE ∧
    encrypt C iv₁ P K ≠ encrypt C iv₂ P K ∧
    decrypt C (encrypt C iv₁ P K) K = Except.ok P ∧
    decrypt C (encrypt C iv₂ P K) K = Except.ok P := by
  have ht₁ : (encrypt C iv₁ P K).take IV_SIZE = iv₁ := List.take_left' h₁
  have ht₂ : (encrypt C iv₂ P K).take IV_SIZE = iv₂ := List.take_left' h₂
  have htne : (encrypt C iv₁ P K).take IV_SIZE ≠ (encrypt C iv₂ P K).take IV_SIZE := by
    rw [ht₁, ht₂]
    exact hne
  refine ⟨htne, ?_, decrypt_encrypt C P K K iv₁ h₁ rfl, decrypt_encrypt C P K K iv₂ h₂ rfl⟩
  intro hcontr
  exact htne (by rw [hcontr])

theorem encrypt_nondeterminism_witness :
    (List.replicate 16 0 : List Nat) ≠ List.replicate 16 1 ∧
    encrypt xorCipher (List.replicate 16 0) [1] [7]
      ≠ encrypt xorCipher (List.replicate 16 1) [1] [7] :=
  ⟨by decide,
    (encrypt_nondeterminism xorCipher [1] [7] (List.replicate 16 0) (List.replicate 16 1)
      (by decide) (by decide) (by decide)).2.1⟩

/-- C6: `encryptAsync` and `decryptAsync` compute the same input/output
function and failure conditions as `encrypt` and `decrypt`: for the same IV
value `encryptAsync` produces the same envelope as `encrypt`, `decryptAsync`
resolves to exactly what `decrypt` returns on every input, and the cross
round-trips `decrypt ∘ encryptAsync` and `decryptAsync ∘ encrypt` both
recover the plaintext. -/
theorem async_sync_equiv (C : BlockCipher) (P K E iv : List Nat)
    (hiv : iv.length = IV_SIZE) :
    encryptAsync C iv P K = encrypt C iv P K ∧
    decryptAsync C E K = decrypt C E K ∧
    decrypt C (encryptAsync C iv P K) K = Except.ok P ∧
    decryptAsync C (encrypt C iv P K) K = Except.ok P := by
  refine ⟨encryptAsync_eq_encrypt C iv P K, decryptAsync_eq_decrypt C E K, ?_, ?_⟩
  · rw [encryptAsync_eq_encrypt C iv P K]
    exact decrypt_encrypt C P K K iv hiv rfl
  · rw [decryptAsync_eq_decrypt]
    exact decrypt_encrypt C P K K iv hiv rfl

theorem async_sync_equiv_witness :
    (List.replicate 16 2).length = IV_SIZE ∧
    encryptAsync xorCipher (List.replicate 16 2) [4, 5] [8]
      = encrypt xorCipher (List.replicate 16 2) [4, 5] [8] ∧
    decryptAsync xorCipher (encrypt xorCipher (List.replicate 16 2) [4, 5] [8]) [8]
      = Except.ok [4, 5] :=
  ⟨by decide,
    (async_sync_equiv xorCipher [4, 5] [8] [] (List.replicate 16 2) (by decide)).1,
    (async_sync_equiv xorCipher [4, 5] [8] [] (List.replicate 16 2) (by decide)).2.2.2⟩

/-- C7: on an envelope whose 16-byte IV prefix is followed by a whole number
of ciphertext blocks, if CBC decryption under the derived key and extracted
IV does not end in valid PKCS padding, `decrypt` fails with the
decryption-integrity (bad-decrypt) error and never returns any plaintext. -/
theorem decrypt_integrity_all_or_nothing (C : BlockCipher) (e K : List Nat)
    (hlen : IV_SIZE < e.length)
    (hmul : (e.length - IV_SIZE) % BLOCK_SIZE = 0)
    (hbad : pkcs7Unpad (cbcDecryptBlocks C (prepareKey K) (e.take IV_SIZE)
      (toBlocks (e.drop IV_SIZE))).flatten = none) :
    decrypt C e K = Except.error DecryptError.badDecrypt ∧
    ∀ m, decrypt C e K ≠ Except.ok m := by
  have htake : (e.take IV_SIZE).length = IV_SIZE := by
    rw [List.length_take]
    exact Nat.min_eq_left (Nat.le_of_lt hlen)
  have hdroplen : (e.drop IV_SIZE).length = e.length - IV_SIZE := List.length_drop _ _
  have hmain : decrypt C e K = Except.error DecryptError.badDecrypt := by
    simp only [decrypt]
    rw [if_neg (by rw [htake]; exact fun hcontr => hcontr rfl),
      if_neg (by push_neg; rw [hdroplen]; exact ⟨by omega, by rw [hmul]⟩), hbad]
  exact ⟨hmain, fun m hcontr => by rw [hmain] at hcontr; exact Except.noConfusion hcontr⟩

theorem decrypt_integrity_all_or_nothing_witness :
    IV_SIZE < (List.replicate 16 0 ++ List.replicate 16 165).length ∧
    ((List.replicate 16 0 ++ List.replicate 16 165).length - IV_SIZE) % BLOCK_SIZE = 0 ∧
    decrypt xorCipher (List.replicate 16 0 ++ List.replicate 16 165) []
      = Except.error DecryptError.badDecrypt :=
  ⟨by decide, by decide,
    (decrypt_integrity_all_or_nothing xorCipher (List.replicate 16 0 ++ List.replicate 16 165)
      [] (by decide) (by decide) (by decide)).1⟩

/-- C8: the confirmation helper answers `true` exactly when the lowercased
user input equals the lowercasing of some accepted token, and with the
default token set `["yes", "y"]` exactly when the lowercased input is
`"yes"` or `"y"`; any other input yields `false`. -/
theorem askQuestion_spec (input : List Char) (yes : List (List Char)) :
    (askQuestion input yes = true ↔ ∃ y ∈ yes, lowercase input = lowercase y) ∧
    (askQuestion input defaultYes = true ↔
      lowercase input = ['y', 'e', 's'] ∨ lowercase input = ['y']) := by
  have hcontains : ∀ ys : List (List Char), askQuestion input ys = true ↔
      lowercase input ∈ ys.map lowercase := by
    intro ys
    simp [askQuestion]
  constructor
  · rw [hcontains yes, List.mem_map]
    constructor
    · rintro ⟨y, hy, hmap⟩
      exact ⟨y, hy, hmap.symm⟩
    · rintro ⟨y, hy, hmap⟩
      exact ⟨y, hy, hmap.symm⟩
  · rw [hcontains defaultYes]
    have hdef : defaultYes.map lowercase = [['y', 'e', 's'], ['y']] := by decide
    rw [hdef]
    simp

/-- C9: two passwords normalizing to the same 32-byte key via `prepareKey`
are interchangeable: an envelope encrypted under either decrypts to the
original plaintext under the other. -/
theorem prepareKey_collision_roundtrip (C : BlockCipher) (P K₁ K₂ iv : List Nat)
    (hiv : iv.length = IV_SIZE) (hk : prepareKey K₁ = prepareKey K₂) :
    decrypt C (encrypt C iv P K₁) K₂ = Except.ok P ∧
    decrypt C (encrypt C iv P K₂) K₁ = Except.ok P :=
  ⟨decrypt_encrypt C P K₁ K₂ iv hiv hk, decrypt_encrypt C P K₂ K₁ iv hiv hk.symm⟩

theorem prepareKey_collision_roundtrip_witness :
    prepareKey [5] = prepareKey [5, 0] ∧
    decrypt xorCipher (encrypt xorCipher (List.replicate 16 0) [1, 2, 3] [5]) [5, 0]
      = Except.ok [1, 2, 3] :=
  ⟨by decide,
    (prepareKey_collision_roundtrip xorCipher [1, 2, 3] [5] [5, 0] (List.replicate 16 0)
      (by decide) (by decide)).1⟩

/-- C10: given a string instead of a byte buffer, `encrypt` (and
`encryptAsync`) encrypts the UTF-8 byte encoding of the string: the envelope
equals the one `encrypt` produces on `utf8Bytes` of the string for the same
IV, and decrypting it returns the UTF-8 bytes of the string. -/
theorem encrypt_string_utf8 (C : BlockCipher) (s : List Char) (K iv : List Nat)
    (hiv : iv.length = IV_SIZE) :
    encryptString C iv s K = encrypt C iv (utf8Bytes s) K ∧
    encryptStringAsync C iv s K = encryptAsync C iv (utf8Bytes s) K ∧
    decrypt C (encryptString C iv s K) K = Except.ok (utf8Bytes s) :=
  ⟨rfl, rfl, decrypt_encrypt C (utf8Bytes s) K K iv hiv rfl⟩

theorem encrypt_string_utf8_witness :
    (List.replicate 16 3).length = IV_SIZE ∧
    utf8Bytes ['H', 'i'] = [72, 105] ∧
    decrypt xorCipher (encryptString xorCipher (List.replicate 16 3) ['H', 'i'] [6]) [6]
      = Except.ok (utf8Bytes ['H', 'i']) :=
  ⟨by decide, by decide,
    (encrypt_string_utf8 xorCipher ['H', 'i'] [6] (List.replicate 16 3) (by decide)).2.2⟩

end SimpleEncryption
